import Mathlib

/-!
Verification of the geometric core of the SnowflakeCreator drawing
application: wedge containment, wedge clipping, stroke simplification,
endpoint snapping, twelve-fold symmetry replication, and the
coordinate-transform baking pipeline.

The definitions below are shallow embeddings of the TypeScript source
(`drawing.ts`, `snapping.ts`, `symmetry.ts`).  Floating-point numbers are
modelled as real numbers.  SVG path-data and transform attribute strings
are modelled structurally: a path is a list of commands each holding its
flat list of numeric arguments, and a transform attribute is the record of
the rotate / scale / translate components that the baker's pattern
matching extracts from the attribute string.

Where two revisions of the same module exist in the repository, the
embedding follows the complete final revision (the `drawing.ts` revision
that bounds the wedge by the 400-unit radius and contains the line tool,
wedge clipping and path simplification).
-/

namespace Snowflake

/-- A point `{x, y}` in the drawing surface's coordinate space. -/
@[ext]
structure Point where
  x : ℝ
  y : ℝ

/-- The center of the snowflake, `CENTER = { x: 500, y: 500 }` in `symmetry.ts`
(the same constant is inlined as the default `center` argument in `drawing.ts`;
every call site uses that default). -/
def CENTER : Point := ⟨500, 500⟩

/-- `Math.sqrt(dx*dx + dy*dy)`: the Euclidean distance between two points,
as computed by `distance` in `snapping.ts` and inline in `isPointInWedge`. -/
noncomputable def distance (p q : Point) : ℝ :=
  Real.sqrt ((q.x - p.x) ^ 2 + (q.y - p.y) ^ 2)

/-- The two-argument arctangent `Math.atan2(y, x)`, with values in (-π, π]. -/
noncomputable def atan2 (y x : ℝ) : ℝ :=
  if 0 < x then Real.arctan (y / x)
  else if x < 0 then
    (if 0 ≤ y then Real.arctan (y / x) + Real.pi else Real.arctan (y / x) - Real.pi)
  else if 0 < y then Real.pi / 2
  else if y < 0 then -(Real.pi / 2)
  else 0

/-- The raw angle of `p` from the center in degrees:
`Math.atan2(dx, -dy) * (180 / Math.PI)` in `isPointInWedge`
(0° = up, increasing clockwise). -/
noncomputable def rawAngleDeg (p : Point) : ℝ :=
  atan2 (p.x - CENTER.x) (-(p.y - CENTER.y)) * (180 / Real.pi)

/-- The angle normalized to [0, 360): `if (angle < 0) angle += 360`. -/
noncomputable def wedgeAngleDeg (p : Point) : ℝ :=
  if rawAngleDeg p < 0 then rawAngleDeg p + 360 else rawAngleDeg p

/-- `isPointInWedge` from `drawing.ts` (final revision): the early return
`if (distance > 400) return false` followed by
`return angle >= 0 && angle <= 30` is rendered as a conjunction. -/
noncomputable def isPointInWedge (p : Point) : Prop :=
  ¬ 400 < distance CENTER p ∧ (0 ≤ wedgeAngleDeg p ∧ wedgeAngleDeg p ≤ 30)

noncomputable instance (p : Point) : Decidable (isPointInWedge p) :=
  Classical.propDecidable _

/-- The wedge-containment predicate as the specification words it:
Euclidean distance from `p` to the center at most 400, and the angle of `p`
from the center (computed as `atan2(dx, -dy)` normalized to [0,360))
in the closed interval [0, 30]. -/
noncomputable def containsPointSpec (p : Point) : Prop :=
  distance p CENTER ≤ 400 ∧ wedgeAngleDeg p ∈ Set.Icc (0 : ℝ) 30

theorem distance_comm (p q : Point) : distance p q = distance q p := by
  unfold distance
  ring_nf

theorem atan2_range (y x : ℝ) : -Real.pi < atan2 y x ∧ atan2 y x ≤ Real.pi := by
  have hpi := Real.pi_pos
  have h1 := Real.arctan_lt_pi_div_two (y / x)
  have h2 := Real.neg_pi_div_two_lt_arctan (y / x)
  unfold atan2
  split_ifs with hx hx' hy hy' hy''
  · constructor <;> nlinarith
  · have hyx : y / x ≤ 0 := div_nonpos_of_nonneg_of_nonpos hy hx'.le
    have h3 : Real.arctan (y / x) ≤ 0 := by
      have := Real.arctan_strictMono.monotone hyx
      simpa [Real.arctan_zero] using this
    constructor <;> nlinarith
  · have hyx : 0 < y / x := div_pos_iff.mpr (Or.inr ⟨not_le.mp hy, hx'⟩)
    have h3 : 0 < Real.arctan (y / x) := by
      have := Real.arctan_strictMono hyx
      simpa [Real.arctan_zero] using this
    constructor <;> nlinarith
  · constructor <;> nlinarith
  · constructor <;> nlinarith
  · constructor <;> nlinarith

theorem rawAngleDeg_range (p : Point) : -180 < rawAngleDeg p ∧ rawAngleDeg p ≤ 180 := by
  obtain ⟨h1, h2⟩ := atan2_range (p.x - CENTER.x) (-(p.y - CENTER.y))
  have hpi : Real.pi * (180 / Real.pi) = 180 := by
    field_simp
  have hpos : (0 : ℝ) < 180 / Real.pi := by positivity
  unfold rawAngleDeg
  constructor
  · nlinarith [mul_pos
      (show (0 : ℝ) < atan2 (p.x - CENTER.x) (-(p.y - CENTER.y)) + Real.pi by linarith) hpos]
  · nlinarith [mul_nonneg
      (show (0 : ℝ) ≤ Real.pi - atan2 (p.x - CENTER.x) (-(p.y - CENTER.y)) by linarith) hpos.le]

theorem wedgeAngleDeg_mem_Ico (p : Point) : wedgeAngleDeg p ∈ Set.Ico (0 : ℝ) 360 := by
  obtain ⟨h1, h2⟩ := rawAngleDeg_range p
  unfold wedgeAngleDeg
  split_ifs with h
  · exact ⟨by linarith, by linarith⟩
  · exact ⟨le_of_not_lt h, by linarith⟩

/-- C1: for every point `p`, the wedge containment test returns true iff the
Euclidean distance from `p` to the center (500,500) is at most 400 and the
angle of `p` from the center (`atan2(dx, -dy)` normalized to [0,360)) lies in
the closed interval [0, 30]; the normalized angle indeed lies in [0, 360), and
both bounds being inclusive, a point at angle strictly greater than 30 or
distance strictly greater than 400 tests false. -/
theorem wedge_containment_iff (p : Point) :
    (isPointInWedge p ↔ containsPointSpec p) ∧
    wedgeAngleDeg p ∈ Set.Ico (0 : ℝ) 360 ∧
    (30 < wedgeAngleDeg p ∨ 400 < distance p CENTER → ¬ isPointInWedge p) := by
  refine ⟨?_, wedgeAngleDeg_mem_Ico p, ?_⟩
  · unfold isPointInWedge containsPointSpec
    rw [distance_comm p CENTER]
    simp only [Set.mem_Icc, not_lt]
  · rintro (h | h) ⟨hd, _, h30⟩
    · linarith
    · rw [distance_comm p CENTER] at h
      exact hd h

/-- `SNAP_THRESHOLD = 20` in `snapping.ts`. -/
def SNAP_THRESHOLD : ℝ := 20

/-- The body of the `for (const endpoint of allEndpoints)` loop of
`snapToNearestSnowflakeEndpoint`: remember the endpoint when its distance is
strictly below the threshold and strictly below the best distance so far. -/
noncomputable def snapStep (p : Point) (acc : Option (Point × ℝ)) (e : Point) :
    Option (Point × ℝ) :=
  if distance p e < SNAP_THRESHOLD then
    match acc with
    | none => some (e, distance p e)
    | some (q, nd) => if distance p e < nd then some (e, distance p e) else some (q, nd)
  else acc

/-- `snapToNearestSnowflakeEndpoint` from `snapping.ts`: fold the loop over the
baked endpoint list and return the nearest endpoint found, or the candidate
unchanged. -/
noncomputable def snapToNearestSnowflakeEndpoint (p : Point) (allEndpoints : List Point) :
    Point :=
  match allEndpoints.foldl (snapStep p) none with
  | some (q, _) => q
  | none => p

/-- The loop invariant of the snapping fold, over the endpoints seen so far. -/
noncomputable def snapInv (p : Point) (seen : List Point) : Option (Point × ℝ) → Prop
  | none => ∀ e ∈ seen, ¬ distance p e < SNAP_THRESHOLD
  | some (q, d) => q ∈ seen ∧ d = distance p q ∧ d < SNAP_THRESHOLD ∧
      ∀ e ∈ seen, distance p e < SNAP_THRESHOLD → d ≤ distance p e

theorem snapStep_inv (p : Point) (seen : List Point) (acc : Option (Point × ℝ)) (e : Point)
    (h : snapInv p seen acc) : snapInv p (seen ++ [e]) (snapStep p acc e) := by
  rcases acc with _ | ⟨q, nd⟩
  · unfold snapStep
    split_ifs with hd
    · refine ⟨by simp, rfl, hd, ?_⟩
      intro e' he' hclose
      rcases List.mem_append.mp he' with h' | h'
      · exact absurd hclose (h e' h')
      · simp only [List.mem_singleton] at h'
        subst h'
        exact le_refl _
    · intro e' he'
      rcases List.mem_append.mp he' with h' | h'
      · exact h e' h'
      · simp only [List.mem_singleton] at h'
        subst h'
        exact hd
  · obtain ⟨hq, hnd, hlt, hmin⟩ := h
    unfold snapStep
    split_ifs with hd
    · show snapInv p (seen ++ [e])
        (if distance p e < nd then some (e, distance p e) else some (q, nd))
      split_ifs with hbetter
      · refine ⟨by simp, rfl, hd, ?_⟩
        intro e' he' hclose
        rcases List.mem_append.mp he' with h' | h'
        · exact le_of_lt (lt_of_lt_of_le hbetter (hmin e' h' hclose))
        · simp only [List.mem_singleton] at h'
          subst h'
          exact le_refl _
      · refine ⟨by simp [hq], hnd, hlt, ?_⟩
        intro e' he' hclose
        rcases List.mem_append.mp he' with h' | h'
        · exact hmin e' h' hclose
        · simp only [List.mem_singleton] at h'
          subst h'
          exact le_of_not_lt hbetter
    · refine ⟨by simp [hq], hnd, hlt, ?_⟩
      intro e' he' hclose
      rcases List.mem_append.mp he' with h' | h'
      · exact hmin e' h' hclose
      · simp only [List.mem_singleton] at h'
        subst h'
        exact absurd hclose hd

theorem snapFold_inv (p : Point) (es : List Point) :
    ∀ (seen : List Point) (acc : Option (Point × ℝ)), snapInv p seen acc →
      snapInv p (seen ++ es) (es.foldl (snapStep p) acc) := by
  induction es with
  | nil => intro seen acc h; simpa using h
  | cons e es ih =>
      intro seen acc h
      have h1 := snapStep_inv p seen acc e h
      have h2 := ih (seen ++ [e]) (snapStep p acc e) h1
      simpa using h2

theorem snap_characterization (p : Point) (es : List Point) :
    snapInv p es (es.foldl (snapStep p) none) := by
  have := snapFold_inv p es [] none (by intro e he; simp at he)
  simpa using this

/-- C6: for every candidate point and baked endpoint set, the endpoint snapper
returns the endpoint of minimum Euclidean distance when that minimum is
strictly below the 20-unit threshold, and the candidate unchanged otherwise;
in particular a candidate at (551,451) with an endpoint at (550,450) snaps to
(550,450), and a candidate at distance 30 from every endpoint does not snap. -/
theorem endpoint_snapper_spec (p : Point) (es : List Point) :
    ((∃ e ∈ es, distance p e < SNAP_THRESHOLD) →
        snapToNearestSnowflakeEndpoint p es ∈ es ∧
        distance p (snapToNearestSnowflakeEndpoint p es) < SNAP_THRESHOLD ∧
        ∀ e ∈ es, distance p (snapToNearestSnowflakeEndpoint p es) ≤ distance p e) ∧
    ((∀ e ∈ es, ¬ distance p e < SNAP_THRESHOLD) →
        snapToNearestSnowflakeEndpoint p es = p) ∧
    snapToNearestSnowflakeEndpoint ⟨551, 451⟩ [⟨550, 450⟩] = ⟨550, 450⟩ ∧
    snapToNearestSnowflakeEndpoint ⟨580, 450⟩ [⟨550, 450⟩] = ⟨580, 450⟩ := by
  have H := snap_characterization p es
  refine ⟨?_, ?_, ?_, ?_⟩
  · rintro ⟨e0, he0, hclose⟩
    unfold snapToNearestSnowflakeEndpoint
    rcases hfold : es.foldl (snapStep p) none with _ | ⟨q, d⟩
    · rw [hfold] at H
      exact absurd hclose (H e0 he0)
    · rw [hfold] at H
      obtain ⟨hq, hdq, hlt, hmin⟩ := H
      subst hdq
      refine ⟨hq, hlt, ?_⟩
      intro e he
      by_cases hc : distance p e < SNAP_THRESHOLD
      · exact hmin e he hc
      · exact le_of_lt (lt_of_lt_of_le hlt (le_of_not_lt hc))
  · intro hfar
    unfold snapToNearestSnowflakeEndpoint
    rcases hfold : es.foldl (snapStep p) none with _ | ⟨q, d⟩
    · rfl
    · rw [hfold] at H
      obtain ⟨hq, hdq, hlt, _⟩ := H
      exact absurd (hdq ▸ hlt) (hfar q hq)
  · have hdist : distance ⟨551, 451⟩ ⟨550, 450⟩ < SNAP_THRESHOLD := by
      have h2 : distance ⟨551, 451⟩ ⟨550, 450⟩ = Real.sqrt 2 := by
        unfold distance
        norm_num
      rw [h2]
      unfold SNAP_THRESHOLD
      rw [Real.sqrt_lt' (by norm_num)]
      norm_num
    simp [snapToNearestSnowflakeEndpoint, snapStep, hdist]
  · have hfar : ¬ distance ⟨580, 450⟩ ⟨550, 450⟩ < SNAP_THRESHOLD := by
      have h30 : distance ⟨580, 450⟩ ⟨550, 450⟩ = 30 := by
        unfold distance
        rw [show (((550:ℝ) - 580) ^ 2 + ((450:ℝ) - 450) ^ 2) = 30 ^ 2 by norm_num]
        exact Real.sqrt_sq (by norm_num)
      rw [h30]
      unfold SNAP_THRESHOLD
      norm_num
    simp [snapToNearestSnowflakeEndpoint, snapStep, hfar]

/-- `perpendicularDistance` from `drawing.ts`: point-to-line distance via the
cross-product formula, with the degenerate `dx === 0 && dy === 0` case reduced
to point-to-point distance. -/
noncomputable def perpendicularDistance (point lineStart lineEnd : Point) : ℝ :=
  if lineEnd.x - lineStart.x = 0 ∧ lineEnd.y - lineStart.y = 0 then
    Real.sqrt ((point.x - lineStart.x) ^ 2 + (point.y - lineStart.y) ^ 2)
  else
    |(lineEnd.y - lineStart.y) * point.x - (lineEnd.x - lineStart.x) * point.y +
        lineEnd.x * lineStart.y - lineEnd.y * lineStart.x| /
      Real.sqrt ((lineEnd.x - lineStart.x) ^ 2 + (lineEnd.y - lineStart.y) ^ 2)

theorem perpendicularDistance_nonneg (p a b : Point) : 0 ≤ perpendicularDistance p a b := by
  unfold perpendicularDistance
  split_ifs
  · exact Real.sqrt_nonneg _
  · exact div_nonneg (abs_nonneg _) (Real.sqrt_nonneg _)

theorem perpendicularDistance_lineStart (a b : Point) : perpendicularDistance a a b = 0 := by
  unfold perpendicularDistance
  split_ifs
  · simp
  · rw [show (b.y - a.y) * a.x - (b.x - a.x) * a.y + b.x * a.y - b.y * a.x = 0 by ring]
    simp

theorem perpendicularDistance_lineEnd (a b : Point) : perpendicularDistance b a b = 0 := by
  unfold perpendicularDistance
  split_ifs with h
  · rw [show (b.x - a.x) ^ 2 + (b.y - a.y) ^ 2 = 0 by rw [h.1, h.2]; ring]
    simp
  · rw [show (b.y - a.y) * b.x - (b.x - a.x) * b.y + b.x * a.y - b.y * a.x = 0 by ring]
    simp

/-- One step of the maximum-distance scan of `simplifyPath`: keep the
first index attaining the strictly largest value (`if (distance > maxDistance)`). -/
noncomputable def maxStep (d : ℕ → ℝ) (acc : ℝ × ℕ) (i : ℕ) : ℝ × ℕ :=
  if acc.1 < d i then (d i, i) else acc

theorem maxFold_fst_le (d : ℕ → ℝ) (l : List ℕ) :
    ∀ acc : ℝ × ℕ, acc.1 ≤ (l.foldl (maxStep d) acc).1 := by
  induction l with
  | nil => intro acc; exact le_refl _
  | cons i l ih =>
      intro acc
      refine le_trans ?_ (ih (maxStep d acc i))
      unfold maxStep
      split_ifs with h
      · exact le_of_lt h
      · exact le_refl _

theorem maxFold_le (d : ℕ → ℝ) (l : List ℕ) :
    ∀ acc : ℝ × ℕ, ∀ i ∈ l, d i ≤ (l.foldl (maxStep d) acc).1 := by
  induction l with
  | nil => intro acc i hi; simp at hi
  | cons j l ih =>
      intro acc i hi
      rcases List.mem_cons.mp hi with h | h
      · subst h
        refine le_trans ?_ (maxFold_fst_le d l (maxStep d acc i))
        unfold maxStep
        split_ifs with h'
        · exact le_refl _
        · exact le_of_not_lt h'
      · exact ih (maxStep d acc j) i h

theorem maxFold_mem (d : ℕ → ℝ) (l : List ℕ) :
    ∀ acc : ℝ × ℕ, (l.foldl (maxStep d) acc).2 ∈ l ∨ l.foldl (maxStep d) acc = acc := by
  induction l with
  | nil => intro acc; exact Or.inr rfl
  | cons j l ih =>
      intro acc
      rcases ih (maxStep d acc j) with h | h
      · exact Or.inl (List.mem_cons_of_mem j h)
      · rw [List.foldl_cons, h]
        unfold maxStep
        split_ifs
        · exact Or.inl (List.mem_cons_self j l)
        · exact Or.inr rfl

/-- The interior scan of `simplifyPath`: over `i` from 1 to `end - 1`, the
perpendicular distance of `points[i]` from the segment `points[0]`-`points[end]`,
starting from `maxDistance = 0`, `maxIndex = 0`. -/
noncomputable def maxScan (pts : List Point) : ℝ × ℕ :=
  (List.range' 1 (pts.length - 2)).foldl
    (maxStep fun i => perpendicularDistance (pts.getD i ⟨0, 0⟩) (pts.getD 0 ⟨0, 0⟩)
      (pts.getD (pts.length - 1) ⟨0, 0⟩))
    (0, 0)

/-- `simplifyPath` from `drawing.ts` (Ramer-Douglas-Peucker), with an explicit
recursion budget standing for the JavaScript call stack.  Whenever the source
recurses, both slices are strictly shorter than the input (shown in the C5
theorem's induction), so a budget of `length` is never exhausted there. -/
noncomputable def simplifyFuel : ℕ → List Point → ℝ → List Point
  | 0, pts, _ => pts
  | fuel + 1, pts, epsilon =>
    if pts.length ≤ 2 then pts
    else if epsilon < (maxScan pts).1 then
      (simplifyFuel fuel (pts.take ((maxScan pts).2 + 1)) epsilon).dropLast ++
        simplifyFuel fuel (pts.drop (maxScan pts).2) epsilon
    else
      [pts.getD 0 ⟨0, 0⟩, pts.getD (pts.length - 1) ⟨0, 0⟩]

/-- `simplifyPath(points, epsilon)`. -/
noncomputable def simplifyPath (pts : List Point) (epsilon : ℝ) : List Point :=
  simplifyFuel pts.length pts epsilon

/-- The perpendicular deviation of a point from a polyline: the least
`perpendicularDistance` to one of the polyline's segments
(0 for a polyline with fewer than two vertices). -/
noncomputable def devToPolyline (p : Point) : List Point → ℝ
  | [a, b] => perpendicularDistance p a b
  | a :: b :: rest => min (perpendicularDistance p a b) (devToPolyline p (b :: rest))
  | _ => 0

theorem devToPolyline_cons_le (p a : Point) :
    ∀ (l : List Point), 2 ≤ l.length → devToPolyline p (a :: l) ≤ devToPolyline p l
  | b :: c :: t, _ => min_le_right _ _
  | [], h => by simp at h
  | [_], h => by simp at h

theorem devToPolyline_append_right (p : Point) :
    ∀ (l₁ l₂ : List Point), 2 ≤ l₂.length →
      devToPolyline p (l₁ ++ l₂) ≤ devToPolyline p l₂
  | [], _, _ => by simp
  | a :: l₁, l₂, h => by
      have h1 : 2 ≤ (l₁ ++ l₂).length := by
        rw [List.length_append]; omega
      calc devToPolyline p ((a :: l₁) ++ l₂) = devToPolyline p (a :: (l₁ ++ l₂)) := rfl
        _ ≤ devToPolyline p (l₁ ++ l₂) := devToPolyline_cons_le p a (l₁ ++ l₂) h1
        _ ≤ devToPolyline p l₂ := devToPolyline_append_right p l₁ l₂ h

theorem devToPolyline_append_left (p : Point) :
    ∀ (l₁ l₂ : List Point), 2 ≤ l₁.length →
      devToPolyline p (l₁ ++ l₂) ≤ devToPolyline p l₁
  | [], _, h => by simp at h
  | [_], _, h => by simp at h
  | [a, b], l₂, _ => by
      cases l₂ with
      | nil => simp
      | cons c t =>
          show min (perpendicularDistance p a b) (devToPolyline p (b :: c :: t)) ≤
            perpendicularDistance p a b
          exact min_le_left _ _
  | a :: b :: c :: t, l₂, _ => by
      have ih := devToPolyline_append_left p (b :: c :: t) l₂ (by simp)
      show min (perpendicularDistance p a b) (devToPolyline p ((b :: c :: t) ++ l₂)) ≤
        min (perpendicularDistance p a b) (devToPolyline p (b :: c :: t))
      exact min_le_min (le_refl _) ih

theorem simplifyFuel_succ (fuel : ℕ) (pts : List Point) (epsilon : ℝ) :
    simplifyFuel (fuel + 1) pts epsilon =
      if pts.length ≤ 2 then pts
      else if epsilon < (maxScan pts).1 then
        (simplifyFuel fuel (pts.take ((maxScan pts).2 + 1)) epsilon).dropLast ++
          simplifyFuel fuel (pts.drop (maxScan pts).2) epsilon
      else [pts.getD 0 ⟨0, 0⟩, pts.getD (pts.length - 1) ⟨0, 0⟩] := rfl

theorem simplifyFuel_spec (epsilon : ℝ) (heps : 0 ≤ epsilon) :
    ∀ (fuel : ℕ) (pts : List Point), pts.length ≤ fuel →
      (∀ p ∈ pts, devToPolyline p (simplifyFuel fuel pts epsilon) ≤ epsilon) ∧
      ((simplifyFuel fuel pts epsilon).head? = pts.head? ∧
        (simplifyFuel fuel pts epsilon).getLast? = pts.getLast?) ∧
      (2 ≤ pts.length → 2 ≤ (simplifyFuel fuel pts epsilon).length) := by
  intro fuel
  induction fuel with
  | zero =>
      intro pts hlen
      have hnil : pts = [] := List.length_eq_zero.mp (Nat.le_zero.mp hlen)
      subst hnil
      exact ⟨by simp, ⟨rfl, rfl⟩, by simp⟩
  | succ fuel ih =>
      intro pts hlen
      by_cases h2 : pts.length ≤ 2
      · have hres : simplifyFuel (fuel + 1) pts epsilon = pts := by
          rw [simplifyFuel_succ, if_pos h2]
        rw [hres]
        refine ⟨?_, ⟨rfl, rfl⟩, fun h => h⟩
        intro p hp
        rcases pts with _ | ⟨a, _ | ⟨b, _ | ⟨c, t⟩⟩⟩
        · simp at hp
        · show (0 : ℝ) ≤ epsilon
          exact heps
        · have hpa : p = a ∨ p = b := by simpa using hp
          show perpendicularDistance p a b ≤ epsilon
          rcases hpa with h | h
          · rw [h, perpendicularDistance_lineStart]
            exact heps
          · rw [h, perpendicularDistance_lineEnd]
            exact heps
        · exfalso
          simp only [List.length_cons] at h2
          omega
      · push_neg at h2
        by_cases hrec : epsilon < (maxScan pts).1
        · -- recursive branch
          have hres : simplifyFuel (fuel + 1) pts epsilon =
              (simplifyFuel fuel (pts.take ((maxScan pts).2 + 1)) epsilon).dropLast ++
                simplifyFuel fuel (pts.drop (maxScan pts).2) epsilon := by
            rw [simplifyFuel_succ, if_neg (by omega), if_pos hrec]
          have hiv : (maxScan pts).2 ∈ List.range' 1 (pts.length - 2) := by
            rcases maxFold_mem _ (List.range' 1 (pts.length - 2)) (0, 0) with h | h
            · exact h
            · exfalso
              have h0 : (maxScan pts).1 = 0 := by
                unfold maxScan
                rw [h]
              rw [h0] at hrec
              linarith
          obtain ⟨hi1, hi2⟩ := List.mem_range'_1.mp hiv
          have hi3 : (maxScan pts).2 < pts.length - 1 := by omega
          have hLlen : (pts.take ((maxScan pts).2 + 1)).length = (maxScan pts).2 + 1 := by
            rw [List.length_take]
            omega
          have hRlen : (pts.drop (maxScan pts).2).length = pts.length - (maxScan pts).2 := by
            rw [List.length_drop]
          obtain ⟨ihLa, ⟨ihLh, ihLl⟩, ihLn⟩ :=
            ih (pts.take ((maxScan pts).2 + 1)) (by omega)
          obtain ⟨ihRa, ⟨ihRh, ihRl⟩, ihRn⟩ :=
            ih (pts.drop (maxScan pts).2) (by rw [hRlen]; omega)
          have hLn : 2 ≤ (simplifyFuel fuel (pts.take ((maxScan pts).2 + 1)) epsilon).length :=
            ihLn (by omega)
          have hRn : 2 ≤ (simplifyFuel fuel (pts.drop (maxScan pts).2) epsilon).length :=
            ihRn (by rw [hRlen]; omega)
          have hidx : (maxScan pts).2 < pts.length := by omega
          have hLlast : (simplifyFuel fuel (pts.take ((maxScan pts).2 + 1)) epsilon).getLast? =
              some (pts.get ⟨(maxScan pts).2, hidx⟩) := by
            rw [ihLl, List.getLast?_eq_getElem?, hLlen, Nat.add_sub_cancel,
              List.getElem?_take_of_lt (Nat.lt_succ_self _), List.getElem?_eq_getElem hidx]
            rfl
          have hRhead : (simplifyFuel fuel (pts.drop (maxScan pts).2) epsilon).head? =
              some (pts.get ⟨(maxScan pts).2, hidx⟩) := by
            rw [ihRh, List.head?_drop, List.getElem?_eq_getElem hidx]
            rfl
          have hsplitL : (simplifyFuel fuel (pts.take ((maxScan pts).2 + 1)) epsilon).dropLast ++
              [pts.get ⟨(maxScan pts).2, hidx⟩] =
              simplifyFuel fuel (pts.take ((maxScan pts).2 + 1)) epsilon :=
            List.dropLast_append_getLast? _ (by rw [Option.mem_def, hLlast])
          obtain ⟨x, r', hR⟩ : ∃ x r', simplifyFuel fuel (pts.drop (maxScan pts).2) epsilon =
              x :: r' := by
            rcases hc : simplifyFuel fuel (pts.drop (maxScan pts).2) epsilon with _ | ⟨x, r'⟩
            · rw [hc] at hRn
              simp at hRn
            · exact ⟨x, r', rfl⟩
          have hx : x = pts.get ⟨(maxScan pts).2, hidx⟩ := by
            rw [hR] at hRhead
            simpa using hRhead
          rw [hres]
          refine ⟨?_, ⟨?_, ?_⟩, ?_⟩
          · intro p hp
            have hmem : p ∈ pts.take ((maxScan pts).2 + 1) ∨ p ∈ pts.drop (maxScan pts).2 := by
              rcases List.mem_append.mp
                  ((List.take_append_drop ((maxScan pts).2 + 1) pts) ▸ hp) with h | h
              · exact Or.inl h
              · refine Or.inr ?_
                have hsub : pts.drop ((maxScan pts).2 + 1) ⊆ pts.drop (maxScan pts).2 := by
                  rw [show (maxScan pts).2 + 1 = (maxScan pts).2 + 1 from rfl,
                    ← List.drop_drop 1 (maxScan pts).2 pts]
                  exact List.drop_subset 1 _
                exact hsub h
            rcases hmem with hmem | hmem
            · have hrw : (simplifyFuel fuel (pts.take ((maxScan pts).2 + 1)) epsilon).dropLast ++
                  simplifyFuel fuel (pts.drop (maxScan pts).2) epsilon =
                  simplifyFuel fuel (pts.take ((maxScan pts).2 + 1)) epsilon ++ r' := by
                rw [hR, hx, List.append_cons, hsplitL]
              rw [hrw]
              exact le_trans (devToPolyline_append_left p _ r' hLn) (ihLa p hmem)
            · exact le_trans (devToPolyline_append_right p _ _ hRn) (ihRa p hmem)
          · rw [List.head?_append_of_ne_nil _ (fun hc => by
              have hlc := congrArg List.length hc
              rw [List.length_dropLast] at hlc
              simp at hlc
              omega)]
            rw [List.head?_dropLast, if_pos (by omega), ihLh, List.head?_take,
              if_neg (by omega)]
          · rw [List.getLast?_append_of_ne_nil _ (fun hc => by
              rw [hc] at hRn
              simp at hRn)]
            rw [ihRl]
            conv_rhs => rw [← List.take_append_drop (maxScan pts).2 pts]
            rw [List.getLast?_append_of_ne_nil _ (fun hc => by
              have hlc := congrArg List.length hc
              rw [hRlen] at hlc
              simp at hlc
              omega)]
          · intro _
            rw [List.length_append, List.length_dropLast]
            omega
        · -- base branch: all interior points within epsilon
          have hres : simplifyFuel (fuel + 1) pts epsilon =
              [pts.getD 0 ⟨0, 0⟩, pts.getD (pts.length - 1) ⟨0, 0⟩] := by
            rw [simplifyFuel_succ, if_neg (by omega), if_neg hrec]
          have h0 : 0 < pts.length := by omega
          have hl : pts.length - 1 < pts.length := by omega
          rw [hres, List.getD_eq_getElem pts ⟨0, 0⟩ h0, List.getD_eq_getElem pts ⟨0, 0⟩ hl]
          refine ⟨?_, ⟨?_, ?_⟩, ?_⟩
          · intro p hp
            obtain ⟨j, hj, rfl⟩ := List.mem_iff_getElem.mp hp
            show perpendicularDistance (pts.get ⟨j, hj⟩) (pts.get ⟨0, h0⟩) (pts.get ⟨pts.length - 1, hl⟩) ≤ epsilon
            rcases Nat.eq_zero_or_pos j with h | hjpos
            · subst h
              rw [perpendicularDistance_lineStart]
              exact heps
            · rcases Nat.lt_or_ge j (pts.length - 1) with hjlt | hjge
              · have hj' : j ∈ List.range' 1 (pts.length - 2) :=
                  List.mem_range'_1.mpr ⟨hjpos, by omega⟩
                have hb : perpendicularDistance (pts.getD j ⟨0, 0⟩) (pts.getD 0 ⟨0, 0⟩)
                    (pts.getD (pts.length - 1) ⟨0, 0⟩) ≤ (maxScan pts).1 :=
                  maxFold_le
                    (fun i => perpendicularDistance (pts.getD i ⟨0, 0⟩) (pts.getD 0 ⟨0, 0⟩)
                      (pts.getD (pts.length - 1) ⟨0, 0⟩))
                    (List.range' 1 (pts.length - 2)) (0, 0) j hj'
                rw [List.getD_eq_getElem pts ⟨0, 0⟩ h0, List.getD_eq_getElem pts ⟨0, 0⟩ hl,
                  List.getD_eq_getElem pts ⟨0, 0⟩ hj] at hb
                exact le_trans hb (not_lt.mp hrec)
              · have hjl : j = pts.length - 1 := by omega
                subst hjl
                rw [perpendicularDistance_lineEnd]
                exact heps
          · have hh : pts.head? = some (pts.get ⟨0, h0⟩) := by
              rw [List.head?_eq_getElem?, List.getElem?_eq_getElem h0]
              rfl
            rw [hh]
            rfl
          · have hh : pts.getLast? = some (pts.get ⟨pts.length - 1, hl⟩) := by
              rw [List.getLast?_eq_getElem?, List.getElem?_eq_getElem hl]
              rfl
            rw [hh]
            rfl
          · intro _
            simp

/-- C5 (amended): for every point sequence and every nonnegative epsilon, the
Ramer-Douglas-Peucker simplification produces a polyline from which no input
point deviates by more than epsilon (deviation measured, as in the source, by
`perpendicularDistance` to the nearest segment of the simplified polyline);
every input of at most 2 points is returned unchanged, for any epsilon. -/
theorem simplify_deviation_bound (pts : List Point) (epsilon : ℝ) :
    (0 ≤ epsilon → ∀ p ∈ pts, devToPolyline p (simplifyPath pts epsilon) ≤ epsilon) ∧
    (pts.length ≤ 2 → simplifyPath pts epsilon = pts) := by
  constructor
  · intro heps
    exact (simplifyFuel_spec epsilon heps pts.length pts (le_refl _)).1
  · intro h2
    unfold simplifyPath
    rcases pts with _ | ⟨a, t⟩
    · rfl
    · show simplifyFuel (t.length + 1) (a :: t) epsilon = a :: t
      rw [simplifyFuel_succ, if_pos h2]

/-- C5 counterexample: for a negative epsilon the deviation bound of the claim
fails: simplifying the two-point path [(0,0),(1,0)] with epsilon = -1 returns
it unchanged, and the deviation 0 of the input point (0,0) from the simplified
polyline does not lie within epsilon = -1. -/
theorem simplify_deviation_neg_eps_cex :
    Point.mk 0 0 ∈ [Point.mk 0 0, Point.mk 1 0] ∧
    ¬ devToPolyline (Point.mk 0 0) (simplifyPath [Point.mk 0 0, Point.mk 1 0] (-1)) ≤ -1 := by
  refine ⟨by simp, ?_⟩
  have hres : simplifyPath [Point.mk 0 0, Point.mk 1 0] (-1) =
      [Point.mk 0 0, Point.mk 1 0] := by
    show simplifyFuel (1 + 1) _ _ = _
    rw [simplifyFuel_succ, if_pos (by simp)]
  rw [hres]
  have hdev : devToPolyline (Point.mk 0 0) [Point.mk 0 0, Point.mk 1 0] =
      perpendicularDistance (Point.mk 0 0) (Point.mk 0 0) (Point.mk 1 0) := rfl
  rw [hdev, perpendicularDistance_lineStart]
  norm_num

/-- The point at parameter `t` along the segment from `start` to `e`:
`{ x: start.x + t * dx, y: start.y + t * dy }`. -/
def lerp (start e : Point) (t : ℝ) : Point :=
  ⟨start.x + t * (e.x - start.x), start.y + t * (e.y - start.y)⟩

/-- `t < minT`, where `minT` starts as `Infinity` (modelled as `none`). -/
def ltOpt (t : ℝ) : Option ℝ → Prop
  | none => True
  | some m => t < m

noncomputable instance (t : ℝ) (m : Option ℝ) : Decidable (ltOpt t m) :=
  match m with
  | none => .isTrue trivial
  | some v => inferInstanceAs (Decidable (t < v))

/-- The circle branch of `clipLineToWedge`: intersection of the segment with
the radius-400 circle, via the quadratic formula (the `+` root, the exit
point), accepted for `t > 0 && t < 1 && t < minT`. -/
noncomputable def clipStepCircle (start e : Point) (st : Option ℝ × Point) :
    Option ℝ × Point :=
  let dx := e.x - start.x
  let dy := e.y - start.y
  let a := dx ^ 2 + dy ^ 2
  let b := 2 * ((start.x - CENTER.x) * dx + (start.y - CENTER.y) * dy)
  let c := (start.x - CENTER.x) ^ 2 + (start.y - CENTER.y) ^ 2 - 400 * 400
  let disc := b ^ 2 - 4 * a * c
  if 0 ≤ disc then
    let t := (-b + Real.sqrt disc) / (2 * a)
    if 0 < t ∧ t < 1 ∧ ltOpt t st.1 then (some t, lerp start e t) else st
  else st

/-- The 0° branch of `clipLineToWedge`: intersection with the vertical line
`x = center.x` restricted to `intersectY <= center.y` (the upward ray). -/
noncomputable def clipStepRay0 (start e : Point) (st : Option ℝ × Point) :
    Option ℝ × Point :=
  let dx := e.x - start.x
  let dy := e.y - start.y
  if dx ≠ 0 then
    let t := (CENTER.x - start.x) / dx
    if 0 < t ∧ t < 1 ∧ ltOpt t st.1 then
      let intersectY := start.y + t * dy
      if intersectY ≤ CENTER.y then (some t, ⟨CENTER.x, intersectY⟩) else st
    else st
  else st

/-- The 30° branch of `clipLineToWedge`: parametric intersection with the ray
of direction `(sin 30°, -cos 30°)` from the center, guarded by
`Math.abs(det) > 0.0001` and `s > 0`. -/
noncomputable def clipStepRay30 (start e : Point) (st : Option ℝ × Point) :
    Option ℝ × Point :=
  let dx := e.x - start.x
  let dy := e.y - start.y
  let ldx := Real.sin (30 * Real.pi / 180)
  let ldy := -Real.cos (30 * Real.pi / 180)
  let det := dx * ldy - dy * ldx
  if 0.0001 < |det| then
    let t := ((CENTER.x - start.x) * ldy - (CENTER.y - start.y) * ldx) / det
    let s := ((CENTER.x - start.x) * dy - (CENTER.y - start.y) * dx) / det
    if 0 < t ∧ t < 1 ∧ 0 < s ∧ ltOpt t st.1 then (some t, lerp start e t) else st
  else st

/-- `clipLineToWedge` from `drawing.ts`: return `end` unchanged when inside
the wedge, otherwise run the three boundary branches in source order starting
from `minT = Infinity`, `closestIntersection = end`. -/
noncomputable def clipLineToWedge (start e : Point) : Point :=
  if isPointInWedge e then e
  else (clipStepRay30 start e (clipStepRay0 start e (clipStepCircle start e (none, e)))).2

/-- The circle intersection candidate as the specification describes it:
defined exactly when the branch's acceptance test (other than the running
`minT` comparison) holds. -/
noncomputable def circleCandidate (start e : Point) : Option ℝ :=
  let dx := e.x - start.x
  let dy := e.y - start.y
  let a := dx ^ 2 + dy ^ 2
  let b := 2 * ((start.x - CENTER.x) * dx + (start.y - CENTER.y) * dy)
  let c := (start.x - CENTER.x) ^ 2 + (start.y - CENTER.y) ^ 2 - 400 * 400
  let disc := b ^ 2 - 4 * a * c
  if 0 ≤ disc then
    let t := (-b + Real.sqrt disc) / (2 * a)
    if 0 < t ∧ t < 1 then some t else none
  else none

/-- The 0° ray intersection candidate. -/
noncomputable def ray0Candidate (start e : Point) : Option ℝ :=
  let dx := e.x - start.x
  let dy := e.y - start.y
  if dx ≠ 0 then
    let t := (CENTER.x - start.x) / dx
    if 0 < t ∧ t < 1 ∧ start.y + t * dy ≤ CENTER.y then some t else none
  else none

/-- The 30° ray intersection candidate. -/
noncomputable def ray30Candidate (start e : Point) : Option ℝ :=
  let dx := e.x - start.x
  let dy := e.y - start.y
  let ldx := Real.sin (30 * Real.pi / 180)
  let ldy := -Real.cos (30 * Real.pi / 180)
  let det := dx * ldy - dy * ldx
  if 0.0001 < |det| then
    let t := ((CENTER.x - start.x) * ldy - (CENTER.y - start.y) * ldx) / det
    let s := ((CENTER.x - start.x) * dy - (CENTER.y - start.y) * dx) / det
    if 0 < t ∧ t < 1 ∧ 0 < s then some t else none
  else none

/-- The list of valid boundary-intersection parameters for the segment. -/
noncomputable def clipCandidates (start e : Point) : List ℝ :=
  List.filterMap id [circleCandidate start e, ray0Candidate start e, ray30Candidate start e]

/-- The least element of a list of parameters, `none` for the empty list. -/
noncomputable def minList : List ℝ → Option ℝ
  | [] => none
  | x :: xs => some (xs.foldl min x)

/-- The clipping result as the specification describes it: `end` if inside,
otherwise the intersection point at the smallest valid `t`, or `end`
unclipped when there is no valid candidate. -/
noncomputable def clipSpec (start e : Point) : Point :=
  if isPointInWedge e then e
  else (minList (clipCandidates start e)).elim e (lerp start e)

theorem clipStepCircle_eq (start e : Point) (st : Option ℝ × Point) :
    clipStepCircle start e st =
      (circleCandidate start e).elim st
        (fun t => if ltOpt t st.1 then (some t, lerp start e t) else st) := by
  simp only [clipStepCircle, circleCandidate]
  split_ifs with h1 h2 h3 h4
  · simp only [Option.elim]
    rw [if_pos h2.2.2]
  · exact absurd ⟨h2.1, h2.2.1⟩ h3
  · simp only [Option.elim]
    rw [if_neg (fun hl => h2 ⟨h4.1, h4.2, hl⟩)]
  · simp only [Option.elim]
  · simp only [Option.elim]

theorem clipStepRay0_eq (start e : Point) (st : Option ℝ × Point) :
    clipStepRay0 start e st =
      (ray0Candidate start e).elim st
        (fun t => if ltOpt t st.1 then (some t, lerp start e t) else st) := by
  simp only [clipStepRay0, ray0Candidate]
  split_ifs with h1 h2 h3 h4 h5 h6
  · simp only [Option.elim]
    rw [if_pos h2.2.2]
    refine Prod.ext rfl (Point.ext ?_ rfl)
    show CENTER.x = start.x + (CENTER.x - start.x) / (e.x - start.x) * (e.x - start.x)
    rw [div_mul_cancel₀ _ h1]
    ring
  · exact absurd ⟨h2.1, h2.2.1, h3⟩ h4
  · exact absurd h5.2.2 h3
  · simp only [Option.elim]
  · simp only [Option.elim]
    rw [if_neg (fun hl => h2 ⟨h6.1, h6.2.1, hl⟩)]
  · simp only [Option.elim]
  · simp only [Option.elim]

theorem clipStepRay30_eq (start e : Point) (st : Option ℝ × Point) :
    clipStepRay30 start e st =
      (ray30Candidate start e).elim st
        (fun t => if ltOpt t st.1 then (some t, lerp start e t) else st) := by
  simp only [clipStepRay30, ray30Candidate]
  split_ifs with h1 h2 h3 h4
  · simp only [Option.elim]
    rw [if_pos h2.2.2.2]
  · exact absurd ⟨h2.1, h2.2.1, h2.2.2.1⟩ h3
  · simp only [Option.elim]
    rw [if_neg (fun hl => h2 ⟨h4.1, h4.2.1, h4.2.2, hl⟩)]
  · simp only [Option.elim]
  · simp only [Option.elim]

@[simp]
theorem ltOpt_none (t : ℝ) : ltOpt t none := trivial

@[simp]
theorem ltOpt_some (t m : ℝ) : ltOpt t (some m) ↔ t < m := Iff.rfl

/-- C4: for a start point inside the wedge, the wedge clipping returns `end`
unchanged when `end` is inside the wedge, and otherwise returns the
intersection of the segment with the circle / 0° ray / 30° ray boundary at the
smallest valid parameter `t ∈ (0,1)`, falling back to `end` unclipped when no
candidate is valid (`clipSpec` states exactly this selection). -/
theorem clip_smallest_t (start e : Point) (hstart : isPointInWedge start) :
    clipLineToWedge start e = clipSpec start e := by
  unfold clipLineToWedge clipSpec
  by_cases he : isPointInWedge e
  · rw [if_pos he, if_pos he]
  · rw [if_neg he, if_neg he]
    simp only [clipCandidates]
    rcases hc1 : circleCandidate start e with _ | t1 <;>
      rcases hc2 : ray0Candidate start e with _ | t2 <;>
        rcases hc3 : ray30Candidate start e with _ | t3
    · have s1 : clipStepCircle start e (none, e) = (none, e) := by
        rw [clipStepCircle_eq, hc1]
        rfl
      have s2 : clipStepRay0 start e (none, e) = (none, e) := by
        rw [clipStepRay0_eq, hc2]
        rfl
      have s3 : clipStepRay30 start e (none, e) = (none, e) := by
        rw [clipStepRay30_eq, hc3]
        rfl
      rw [s1, s2, s3]
      simp [minList]
    · have s1 : clipStepCircle start e (none, e) = (none, e) := by
        rw [clipStepCircle_eq, hc1]
        rfl
      have s2 : clipStepRay0 start e (none, e) = (none, e) := by
        rw [clipStepRay0_eq, hc2]
        rfl
      have s3 : clipStepRay30 start e (none, e) = (some t3, lerp start e t3) := by
        rw [clipStepRay30_eq, hc3]
        rfl
      rw [s1, s2, s3]
      simp [minList]
    · have s1 : clipStepCircle start e (none, e) = (none, e) := by
        rw [clipStepCircle_eq, hc1]
        rfl
      have s2 : clipStepRay0 start e (none, e) = (some t2, lerp start e t2) := by
        rw [clipStepRay0_eq, hc2]
        rfl
      rw [s1, s2, clipStepRay30_eq, hc3]
      simp [minList]
    · have s1 : clipStepCircle start e (none, e) = (none, e) := by
        rw [clipStepCircle_eq, hc1]
        rfl
      have s2 : clipStepRay0 start e (none, e) = (some t2, lerp start e t2) := by
        rw [clipStepRay0_eq, hc2]
        rfl
      rw [s1, s2, clipStepRay30_eq, hc3]
      simp only [Option.elim, Prod.fst, ltOpt_some]
      by_cases h32 : t3 < t2
      · rw [if_pos h32]
        simp [minList]
        congr 1
        rw [min_def]
        split_ifs <;> linarith
      · rw [if_neg h32]
        simp [minList]
        congr 1
        rw [min_def]
        split_ifs <;> linarith
    · have s1 : clipStepCircle start e (none, e) = (some t1, lerp start e t1) := by
        rw [clipStepCircle_eq, hc1]
        rfl
      rw [s1, clipStepRay0_eq, hc2]
      simp only [Option.elim]
      rw [clipStepRay30_eq, hc3]
      simp [minList]
    · have s1 : clipStepCircle start e (none, e) = (some t1, lerp start e t1) := by
        rw [clipStepCircle_eq, hc1]
        rfl
      rw [s1, clipStepRay0_eq, hc2]
      simp only [Option.elim]
      rw [clipStepRay30_eq, hc3]
      simp only [Option.elim, Prod.fst, ltOpt_some]
      by_cases h31 : t3 < t1
      · rw [if_pos h31]
        simp [minList]
        congr 1
        rw [min_def]
        split_ifs <;> linarith
      · rw [if_neg h31]
        simp [minList]
        congr 1
        rw [min_def]
        split_ifs <;> linarith
    · have s1 : clipStepCircle start e (none, e) = (some t1, lerp start e t1) := by
        rw [clipStepCircle_eq, hc1]
        rfl
      rw [s1, clipStepRay0_eq, hc2]
      simp only [Option.elim, Prod.fst, ltOpt_some]
      by_cases h21 : t2 < t1
      · rw [if_pos h21, clipStepRay30_eq, hc3]
        simp [minList]
        congr 1
        rw [min_def]
        split_ifs <;> linarith
      · rw [if_neg h21, clipStepRay30_eq, hc3]
        simp [minList]
        congr 1
        rw [min_def]
        split_ifs <;> linarith
    · have s1 : clipStepCircle start e (none, e) = (some t1, lerp start e t1) := by
        rw [clipStepCircle_eq, hc1]
        rfl
      rw [s1, clipStepRay0_eq, hc2]
      simp only [Option.elim, Prod.fst, ltOpt_some]
      by_cases h21 : t2 < t1
      · rw [if_pos h21, clipStepRay30_eq, hc3]
        simp only [Option.elim, Prod.fst, ltOpt_some]
        by_cases h32 : t3 < t2
        · rw [if_pos h32]
          simp [minList]
          congr 1
          rw [min_def, min_def]
          split_ifs <;> linarith
        · rw [if_neg h32]
          simp [minList]
          congr 1
          rw [min_def, min_def]
          split_ifs <;> linarith
      · rw [if_neg h21, clipStepRay30_eq, hc3]
        simp only [Option.elim, Prod.fst, ltOpt_some]
        by_cases h31 : t3 < t1
        · rw [if_pos h31]
          simp [minList]
          congr 1
          rw [min_def, min_def]
          split_ifs <;> linarith
        · rw [if_neg h31]
          simp [minList]
          congr 1
          rw [min_def, min_def]
          split_ifs <;> linarith

theorem wedge_start_point : isPointInWedge ⟨500, 400⟩ := by
  have hdist : distance CENTER ⟨500, 400⟩ = 100 := by
    show Real.sqrt ((500 - 500) ^ 2 + (400 - 500) ^ 2) = 100
    rw [show ((500 : ℝ) - 500) ^ 2 + ((400 : ℝ) - 500) ^ 2 = 100 ^ 2 by norm_num]
    exact Real.sqrt_sq (by norm_num)
  have hraw : rawAngleDeg ⟨500, 400⟩ = 0 := by
    show atan2 (500 - 500) (-(400 - 500)) * (180 / Real.pi) = 0
    rw [show (500 : ℝ) - 500 = 0 by norm_num, show -((400 : ℝ) - 500) = 100 by norm_num]
    unfold atan2
    rw [if_pos (by norm_num : (0 : ℝ) < 100), zero_div, Real.arctan_zero, zero_mul]
  have hang : wedgeAngleDeg ⟨500, 400⟩ = 0 := by
    unfold wedgeAngleDeg
    rw [hraw]
    norm_num
  refine ⟨?_, ?_, ?_⟩
  · rw [hdist]
    norm_num
  · rw [hang]
  · rw [hang]
    norm_num

/-- C4 witness: the start point (500,400) lies inside the wedge and the
clipping theorem applies to it, with end point (500,-100). -/
theorem clip_smallest_t_witness :
    isPointInWedge ⟨500, 400⟩ ∧
      clipLineToWedge ⟨500, 400⟩ ⟨500, -100⟩ = clipSpec ⟨500, 400⟩ ⟨500, -100⟩ :=
  ⟨wedge_start_point, clip_smallest_t _ _ wedge_start_point⟩

/-- The path commands the baker's regex recognizes (`M`, `L`, `Q`, `C`), plus
a constructor standing for any other (unsupported or unparseable) command,
which the command regex never matches. -/
inductive CmdKind
  | M
  | L
  | Q
  | C
  | other
deriving DecidableEq

/-- A parsed path command: its kind and the flat list of numbers the regex
splits out of its argument text (tokens that fail `parseFloat` are dropped
there). -/
structure PathCmd where
  kind : CmdKind
  nums : List ℝ

/-- A parsed `d` attribute. -/
abbrev PathData := List PathCmd

/-- What the baker's three `transform.match` calls extract from a transform
attribute string: the first `rotate(a cx cy)`, the first `scale(sx, sy)` and
the first `translate(tx, ty)`, each optional. -/
structure TransformAttr where
  rot : Option (ℝ × ℝ × ℝ)
  sc : Option (ℝ × ℝ)
  tr : Option (ℝ × ℝ)

/-- `toFixed(2)`: rounding to two decimal digits (the numeric value the
emitted text stands for). -/
noncomputable def round2 (x : ℝ) : ℝ := (round (100 * x) : ℤ) / 100

/-- Apply the parsed transform to one coordinate pair in the source order:
translate first, then scale, then rotate (SVG transform lists apply
right-to-left), the rotation angle converted from degrees. -/
noncomputable def applyTransform (t : TransformAttr) (q : ℝ × ℝ) : ℝ × ℝ :=
  let q1 := match t.tr with
    | some (tx, ty) => (q.1 + tx, q.2 + ty)
    | none => q
  let q2 := match t.sc with
    | some (sx, sy) => (q1.1 * sx, q1.2 * sy)
    | none => q1
  match t.rot with
  | some (ad, cx, cy) =>
      (cx + (q2.1 - cx) * Real.cos (ad * (Real.pi / 180)) -
          (q2.2 - cy) * Real.sin (ad * (Real.pi / 180)),
        cy + (q2.1 - cx) * Real.sin (ad * (Real.pi / 180)) +
          (q2.2 - cy) * Real.cos (ad * (Real.pi / 180)))
  | none => q2

/-- The coordinate loop of `transformPathData`: transform each complete pair
and emit it with `toFixed(2)`; a trailing unpaired number is dropped
(`if (i + 1 >= coords.length) break`). -/
noncomputable def transformNums (t : TransformAttr) : List ℝ → List ℝ
  | x :: y :: rest =>
      round2 (applyTransform t (x, y)).1 :: round2 (applyTransform t (x, y)).2 ::
        transformNums t rest
  | _ => []

/-- `transformPathData`: the regex walk emits, for each supported command in
order, the command letter followed by its transformed coordinate pairs; any
other command never matches and is skipped. -/
noncomputable def transformPathData (t : TransformAttr) (d : PathData) : PathData :=
  d.filterMap fun c =>
    match c.kind with
    | CmdKind.other => none
    | k => some ⟨k, transformNums t c.nums⟩

/-- An SVG path element as the baker sees it: its parsed `d` attribute and its
optional parsed `transform` attribute. -/
structure SvgPath where
  d : PathData
  tf : Option TransformAttr

/-- `bakeTransform`: without a `transform` attribute the clone is returned
with its coordinates untouched; otherwise the transform is applied to the
path data and the attribute removed. -/
noncomputable def bakeTransform (p : SvgPath) : SvgPath :=
  match p.tf with
  | none => ⟨p.d, none⟩
  | some t => ⟨transformPathData t p.d, none⟩

/-- The transform `cloneAndRotate` / `mirrorPath` leave on a replica:
`rotate(angle 500 500)` for the plain copy,
`rotate(angle 500 500) scale(-1, 1) translate(-1000, 0)` for the mirrored
one — recorded as the (angle, mirrored) pair that determines the string. -/
structure ReplicaTransform where
  angle : ℕ
  mirrored : Bool
deriving DecidableEq

/-- The parsed `TransformAttr` of a replica's transform string
(`translate(${-2 * CENTER.x}, 0)` is `translate(-1000, 0)`). -/
noncomputable def ReplicaTransform.attr (rt : ReplicaTransform) : TransformAttr :=
  { rot := some ((rt.angle : ℝ), CENTER.x, CENTER.y)
    sc := if rt.mirrored then some (-1, 1) else none
    tr := if rt.mirrored then some (-2 * CENTER.x, 0) else none }

/-- A replica path element of the snowflake layer: its object identity, its
transform, and (a clone of) the source stroke's geometry. -/
structure Elem (G : Type) where
  eid : ℕ
  tf : ReplicaTransform
  geom : G

/-- A stroke as the symmetry manager receives it: the identity of its
`pathElement` (the `Map` key) and its geometry. -/
structure Stroke (G : Type) where
  sid : ℕ
  geom : G

/-- `ROTATION_ANGLES = [0, 60, 120, 180, 240, 300]`. -/
def ROTATION_ANGLES : List ℕ := [0, 60, 120, 180, 240, 300]

/-- The state of the `SymmetryManager`: the snowflake layer's children in
document order, and the `strokePaths` map from stroke key to replica list (an
association list with JavaScript `Map` semantics); `nextId` supplies fresh
element identities for created clones. -/
structure SymState (G : Type) where
  layer : List (Elem G)
  strokePaths : List (ℕ × List (Elem G))
  nextId : ℕ

/-- `Map.set`: replace the value under an existing key, else append. -/
def mapSet {α : Type} (k : ℕ) (v : α) : List (ℕ × α) → List (ℕ × α)
  | [] => [(k, v)]
  | (k', v') :: rest => if k = k' then (k, v) :: rest else (k', v') :: mapSet k v rest

/-- `Map.get`. -/
def mapLookup {α : Type} (k : ℕ) : List (ℕ × α) → Option α
  | [] => none
  | (k', v') :: rest => if k = k' then some v' else mapLookup k rest

/-- `Map.delete`. -/
def mapDelete {α : Type} (k : ℕ) : List (ℕ × α) → List (ℕ × α)
  | [] => []
  | (k', v') :: rest => if k = k' then rest else (k', v') :: mapDelete k rest

/-- The replica elements `addStroke` creates, in creation order: for each
rotation angle, first the plain rotated clone, then the mirrored rotated
clone, each with a fresh identity. -/
def newReplicas {G : Type} (g : G) (n0 : ℕ) : List ℕ → List (Elem G)
  | [] => []
  | a :: rest =>
      ⟨n0, ⟨a, false⟩, g⟩ :: ⟨n0 + 1, ⟨a, true⟩, g⟩ :: newReplicas g (n0 + 2) rest

/-- `addStroke`: create the 12 replicas, append them to the snowflake layer,
and register them under the stroke's key (replacing any previous entry). -/
def addStroke {G : Type} (s : SymState G) (stroke : Stroke G) : SymState G :=
  { layer := s.layer ++ newReplicas stroke.geom s.nextId ROTATION_ANGLES
    strokePaths := mapSet stroke.sid (newReplicas stroke.geom s.nextId ROTATION_ANGLES)
      s.strokePaths
    nextId := s.nextId + 12 }

/-- `updateStroke`: remove the stroke's existing replicas from the layer (when
it has any), then `addStroke` again with the current geometry. -/
def updateStroke {G : Type} (s : SymState G) (stroke : Stroke G) : SymState G :=
  match mapLookup stroke.sid s.strokePaths with
  | some existing =>
      addStroke
        { layer := s.layer.filter fun el => ¬ existing.any fun p => p.eid = el.eid
          strokePaths := s.strokePaths
          nextId := s.nextId } stroke
  | none => addStroke s stroke

/-- `removeStroke`: remove the stroke's replicas from the layer and drop its
map entry; a stroke with no entry is left alone. -/
def removeStroke {G : Type} (s : SymState G) (sid : ℕ) : SymState G :=
  match mapLookup sid s.strokePaths with
  | none => s
  | some paths =>
      { layer := s.layer.filter fun el => ¬ paths.any fun p => p.eid = el.eid
        strokePaths := mapDelete sid s.strokePaths
        nextId := s.nextId }

/-- `clearAll`: remove every child of the snowflake layer and clear the map. -/
def clearAll {G : Type} (s : SymState G) : SymState G :=
  { layer := [], strokePaths := [], nextId := s.nextId }

/-- The freshly constructed manager. -/
def initState (G : Type) : SymState G := ⟨[], [], 0⟩

/-- The states reachable through the `SymmetryManager` API. -/
inductive Reachable {G : Type} : SymState G → Prop
  | init : Reachable (initState G)
  | add (s : SymState G) (stroke : Stroke G) : Reachable s → Reachable (addStroke s stroke)
  | update (s : SymState G) (stroke : Stroke G) :
      Reachable s → Reachable (updateStroke s stroke)
  | remove (s : SymState G) (sid : ℕ) : Reachable s → Reachable (removeStroke s sid)
  | clear (s : SymState G) : Reachable s → Reachable (clearAll s)

/-- The 12 transforms of a stroke's replicas, in creation order: each of the 6
rotation angles with the un-mirrored and with the mirrored geometry. -/
def canonicalTransforms : List ReplicaTransform :=
  [⟨0, false⟩, ⟨0, true⟩, ⟨60, false⟩, ⟨60, true⟩, ⟨120, false⟩, ⟨120, true⟩,
    ⟨180, false⟩, ⟨180, true⟩, ⟨240, false⟩, ⟨240, true⟩, ⟨300, false⟩, ⟨300, true⟩]

/-- The number of registered replicas, summed over the map's entries. -/
def replicaTotal {G : Type} (s : SymState G) : ℕ :=
  (s.strokePaths.map fun e => e.2.length).sum

theorem newReplicas_tf {G : Type} (g : G) (n0 : ℕ) :
    (newReplicas g n0 ROTATION_ANGLES).map Elem.tf = canonicalTransforms := rfl

theorem mapSet_mem {α : Type} (k : ℕ) (v : α) (m : List (ℕ × α)) :
    ∀ e ∈ mapSet k v m, e = (k, v) ∨ e ∈ m := by
  induction m with
  | nil =>
      intro e he
      simp [mapSet] at he
      exact Or.inl he
  | cons kv rest ih =>
      obtain ⟨k', v'⟩ := kv
      intro e he
      rw [mapSet] at he
      split_ifs at he with hk
      · rcases List.mem_cons.mp he with h | h
        · exact Or.inl h
        · exact Or.inr (List.mem_cons_of_mem _ h)
      · rcases List.mem_cons.mp he with h | h
        · exact Or.inr (List.mem_cons.mpr (Or.inl h))
        · rcases ih e h with h' | h'
          · exact Or.inl h'
          · exact Or.inr (List.mem_cons_of_mem _ h')

theorem mapDelete_mem {α : Type} (k : ℕ) (m : List (ℕ × α)) :
    ∀ e ∈ mapDelete k m, e ∈ m := by
  induction m with
  | nil => intro e he; simp [mapDelete] at he
  | cons kv rest ih =>
      obtain ⟨k', v'⟩ := kv
      intro e he
      rw [mapDelete] at he
      split_ifs at he with hk
      · exact List.mem_cons_of_mem _ he
      · rcases List.mem_cons.mp he with h | h
        · exact List.mem_cons.mpr (Or.inl h)
        · exact List.mem_cons_of_mem _ (ih e h)

theorem mapLookup_set_self {α : Type} (k : ℕ) (v : α) (m : List (ℕ × α)) :
    mapLookup k (mapSet k v m) = some v := by
  induction m with
  | nil => simp [mapSet, mapLookup]
  | cons kv rest ih =>
      obtain ⟨k', v'⟩ := kv
      rw [mapSet]
      split_ifs with hk
      · rw [mapLookup, if_pos rfl]
      · rw [mapLookup, if_neg hk, ih]

theorem mapLookup_set_ne {α : Type} (k k' : ℕ) (v : α) (hk : k ≠ k') (m : List (ℕ × α)) :
    mapLookup k (mapSet k' v m) = mapLookup k m := by
  induction m with
  | nil => simp [mapSet, mapLookup, hk]
  | cons kv rest ih =>
      obtain ⟨ka, va⟩ := kv
      rw [mapSet]
      split_ifs with h1
      · subst h1
        rw [mapLookup, mapLookup, if_neg hk, if_neg hk]
      · by_cases hka : k = ka
        · rw [mapLookup, mapLookup, if_pos hka, if_pos hka]
        · rw [mapLookup, mapLookup, if_neg hka, if_neg hka, ih]

theorem sum_lengths {G : Type} (m : List (ℕ × List (Elem G))) :
    (∀ e ∈ m, (e.2 : List (Elem G)).length = 12) →
      (m.map fun e => e.2.length).sum = 12 * m.length := by
  induction m with
  | nil => intro _; simp
  | cons e rest ih =>
      intro h
      simp only [List.map_cons, List.sum_cons, List.length_cons]
      rw [h e (List.mem_cons_self _ _), ih fun e' he' => h e' (List.mem_cons_of_mem _ he')]
      ring

theorem reachable_canonical {G : Type} (s : SymState G) (h : Reachable s) :
    ∀ e ∈ s.strokePaths, (e.2 : List (Elem G)).map Elem.tf = canonicalTransforms := by
  induction h with
  | init => intro e he; simp [initState] at he
  | add s stroke hr ih =>
      intro e he
      rcases mapSet_mem _ _ _ e he with h' | h'
      · rw [h']
        exact newReplicas_tf _ _
      · exact ih e h'
  | update s stroke hr ih =>
      intro e he
      rw [updateStroke] at he
      cases hl : mapLookup stroke.sid s.strokePaths with
      | some ex =>
          rw [hl] at he
          rcases mapSet_mem _ _ _ e he with h' | h'
          · rw [h']
            exact newReplicas_tf _ _
          · exact ih e h'
      | none =>
          rw [hl] at he
          rcases mapSet_mem _ _ _ e he with h' | h'
          · rw [h']
            exact newReplicas_tf _ _
          · exact ih e h'
  | remove s sid hr ih =>
      intro e he
      rw [removeStroke] at he
      cases hl : mapLookup sid s.strokePaths with
      | some ex =>
          rw [hl] at he
          exact ih e (mapDelete_mem _ _ e he)
      | none =>
          rw [hl] at he
          exact ih e he
  | clear s hr ih =>
      intro e he
      simp [clearAll] at he

/-- C2: at every reachable state of the symmetry replicator, the number of
registered replicas is exactly 12 times the number of registered strokes;
every registered stroke's replicas carry exactly the 12 transforms — each of
the 6 rotation angles {0,60,120,180,240,300} un-mirrored and mirrored — with
no duplicate transforms; addStroke, updateStroke, removeStroke and clearAll
all preserve this. -/
theorem replica_invariant {G : Type} (s : SymState G) (h : Reachable s) :
    replicaTotal s = 12 * s.strokePaths.length ∧
    (∀ e ∈ s.strokePaths, (e.2 : List (Elem G)).map Elem.tf = canonicalTransforms) ∧
    canonicalTransforms.Nodup := by
  have hc := reachable_canonical s h
  refine ⟨?_, hc, by decide⟩
  apply sum_lengths
  intro e he
  have hlen := congrArg List.length (hc e he)
  rw [List.length_map] at hlen
  rw [hlen]
  rfl

/-- C2 witness: the invariant at the state reached by adding one stroke to a
fresh manager. -/
theorem replica_invariant_witness :
    replicaTotal (addStroke (initState Unit) ⟨0, ()⟩) =
      12 * (addStroke (initState Unit) ⟨0, ()⟩).strokePaths.length ∧
    (∀ e ∈ (addStroke (initState Unit) ⟨0, ()⟩).strokePaths,
      (e.2 : List (Elem Unit)).map Elem.tf = canonicalTransforms) ∧
    canonicalTransforms.Nodup :=
  replica_invariant _ (Reachable.add _ _ Reachable.init)

/-- C10: calling updateStroke on a stroke with no registered replicas leaves
the replicator in exactly the state addStroke would produce: the states are
equal, the stroke ends up registered with exactly 12 replicas, and the
replicas of every other registered stroke are unchanged. -/
theorem update_unregistered {G : Type} (s : SymState G) (stroke : Stroke G)
    (h : mapLookup stroke.sid s.strokePaths = none) :
    updateStroke s stroke = addStroke s stroke ∧
    (∃ reps, mapLookup stroke.sid (updateStroke s stroke).strokePaths = some reps ∧
      reps.length = 12) ∧
    ∀ k, k ≠ stroke.sid →
      mapLookup k (updateStroke s stroke).strokePaths = mapLookup k s.strokePaths := by
  have heq : updateStroke s stroke = addStroke s stroke := by
    rw [updateStroke, h]
  refine ⟨heq, ?_, ?_⟩
  · rw [heq]
    exact ⟨_, mapLookup_set_self _ _ _, rfl⟩
  · intro k hk
    rw [heq]
    exact mapLookup_set_ne _ _ _ hk _

/-- C10 witness: updating a stroke unknown to a fresh manager. -/
theorem update_unregistered_witness :
    mapLookup 0 (initState Unit).strokePaths = none ∧
    (updateStroke (initState Unit) ⟨0, ()⟩ = addStroke (initState Unit) ⟨0, ()⟩ ∧
      (∃ reps, mapLookup 0 (updateStroke (initState Unit) ⟨0, ()⟩).strokePaths = some reps ∧
        reps.length = 12) ∧
      ∀ k, k ≠ 0 →
        mapLookup k (updateStroke (initState Unit) ⟨0, ()⟩).strokePaths =
          mapLookup k (initState Unit).strokePaths) :=
  ⟨rfl, update_unregistered (initState Unit) ⟨0, ()⟩ rfl⟩

/-- C8: baking a path that carries no transform attribute returns its
coordinate data unchanged (the source returns the clone before ever touching
`d`). -/
theorem bake_no_transform (p : SvgPath) (h : p.tf = none) :
    (bakeTransform p).d = p.d := by
  rw [bakeTransform, h]

/-- C8 witness: a concrete transform-free path is baked to itself. -/
theorem bake_no_transform_witness :
    (⟨[⟨CmdKind.M, [1, 2]⟩], none⟩ : SvgPath).tf = none ∧
    (bakeTransform ⟨[⟨CmdKind.M, [1, 2]⟩], none⟩).d = [⟨CmdKind.M, [1, 2]⟩] :=
  ⟨rfl, bake_no_transform ⟨[⟨CmdKind.M, [1, 2]⟩], none⟩ rfl⟩

/-- Complete coordinate pairs of a command's argument list; a trailing
unpaired number belongs to no pair. -/
def pairUp : List ℝ → List (ℝ × ℝ)
  | x :: y :: rest => (x, y) :: pairUp rest
  | _ => []

/-- C9 spec side, following the claim's words: keep the supported commands,
in order; emit, for each, every complete coordinate pair transformed (and
rounded to the output precision). -/
noncomputable def transformPathDataSpec (t : TransformAttr) (d : PathData) : PathData :=
  (d.filter fun c => c.kind ≠ CmdKind.other).map fun c =>
    ⟨c.kind, (pairUp c.nums).flatMap fun q =>
      [round2 (applyTransform t q).1, round2 (applyTransform t q).2]⟩

theorem transformNums_eq (t : TransformAttr) :
    ∀ ns : List ℝ, transformNums t ns =
      (pairUp ns).flatMap fun q =>
        [round2 (applyTransform t q).1, round2 (applyTransform t q).2]
  | [] => rfl
  | [_] => rfl
  | x :: y :: rest => by
      rw [transformNums, pairUp, List.flatMap_cons, transformNums_eq t rest]
      rfl

/-- C9: the transform baker transforms every complete coordinate pair of
every supported command (move, line, quadratic, cubic), preserving the
sequence and order of those commands, and skips every unsupported or
unparseable command without failing, the preceding supported commands'
coordinates being emitted in place. -/
theorem baker_structure (t : TransformAttr) (d : PathData) :
    transformPathData t d = transformPathDataSpec t d := by
  induction d with
  | nil => rfl
  | cons c d ih =>
      rcases c with ⟨k, ns⟩
      cases k with
      | other => exact ih
      | M =>
          show (⟨CmdKind.M, transformNums t ns⟩ : PathCmd) :: transformPathData t d =
            (⟨CmdKind.M, (pairUp ns).flatMap fun q =>
              [round2 (applyTransform t q).1, round2 (applyTransform t q).2]⟩ : PathCmd) ::
              transformPathDataSpec t d
          rw [transformNums_eq t ns, ih]
      | L =>
          show (⟨CmdKind.L, transformNums t ns⟩ : PathCmd) :: transformPathData t d =
            (⟨CmdKind.L, (pairUp ns).flatMap fun q =>
              [round2 (applyTransform t q).1, round2 (applyTransform t q).2]⟩ : PathCmd) ::
              transformPathDataSpec t d
          rw [transformNums_eq t ns, ih]
      | Q =>
          show (⟨CmdKind.Q, transformNums t ns⟩ : PathCmd) :: transformPathData t d =
            (⟨CmdKind.Q, (pairUp ns).flatMap fun q =>
              [round2 (applyTransform t q).1, round2 (applyTransform t q).2]⟩ : PathCmd) ::
              transformPathDataSpec t d
          rw [transformNums_eq t ns, ih]
      | C =>
          show (⟨CmdKind.C, transformNums t ns⟩ : PathCmd) :: transformPathData t d =
            (⟨CmdKind.C, (pairUp ns).flatMap fun q =>
              [round2 (applyTransform t q).1, round2 (applyTransform t q).2]⟩ : PathCmd) ::
              transformPathDataSpec t d
          rw [transformNums_eq t ns, ih]

theorem round2_sub_le (x : ℝ) : |round2 x - x| ≤ 1 / 200 := by
  unfold round2
  rw [show ((round (100 * x) : ℤ) : ℝ) / 100 - x =
    (((round (100 * x) : ℤ) : ℝ) - 100 * x) / 100 by ring]
  rw [abs_div, abs_of_pos (show (0 : ℝ) < 100 by norm_num)]
  have h := abs_sub_round (100 * x)
  rw [abs_sub_comm] at h
  linarith

theorem round2_round2 (x : ℝ) : round2 (round2 x) = round2 x := by
  unfold round2
  rw [show (100 : ℝ) * (((round (100 * x) : ℤ) : ℝ) / 100) =
    ((round (100 * x) : ℤ) : ℝ) by ring]
  rw [round_intCast]

/-- The parsed transform of `mirrorPath`'s attribute
`scale(-1, 1) translate(${-2 * CENTER.x}, 0)`. -/
noncomputable def mirrorTF : TransformAttr := ⟨none, some (-1, 1), some (-2 * CENTER.x, 0)⟩

theorem applyTransform_mirrorTF (x y : ℝ) :
    applyTransform mirrorTF (x, y) = (2 * CENTER.x - x, y) := by
  unfold applyTransform mirrorTF
  refine Prod.ext ?_ ?_ <;> simp <;> ring

theorem transformNums_mirror_twice : ∀ ns : List ℝ, Even ns.length →
    List.Forall₂ (fun a b => |b - a| ≤ 1 / 100) ns
      (transformNums mirrorTF (transformNums mirrorTF ns))
  | [], _ => List.Forall₂.nil
  | [x], h => absurd h (by simp)
  | x :: y :: rest, h => by
      have hrest : Even rest.length := by
        rcases h with ⟨k, hk⟩
        simp only [List.length_cons] at hk
        exact ⟨k - 1, by omega⟩
      simp only [transformNums, applyTransform_mirrorTF]
      have h1 := abs_le.mp (round2_sub_le (2 * CENTER.x - x))
      have h2 := abs_le.mp (round2_sub_le (2 * CENTER.x - round2 (2 * CENTER.x - x)))
      have h3 := abs_le.mp (round2_sub_le y)
      refine List.Forall₂.cons ?_ (List.Forall₂.cons ?_ (transformNums_mirror_twice rest hrest))
      · exact abs_le.mpr ⟨by linarith, by linarith⟩
      · rw [round2_round2]
        exact abs_le.mpr ⟨by linarith, by linarith⟩

/-- C7: baking the mirror transform twice reproduces the original
coordinates within the floating-point (two-decimal output) tolerance 0.01:
for every path geometry made of supported commands with complete coordinate
pairs, the twice-mirrored bake agrees with the original command for command,
in kind and pointwise in every coordinate within 1/100. -/
theorem mirror_twice_bake (d : PathData)
    (hsupp : ∀ c ∈ d, c.kind ≠ CmdKind.other)
    (heven : ∀ c ∈ d, Even c.nums.length) :
    List.Forall₂ (fun c c' => c.kind = c'.kind ∧
        List.Forall₂ (fun a b => |b - a| ≤ 1 / 100) c.nums c'.nums)
      d (transformPathData mirrorTF (transformPathData mirrorTF d)) := by
  induction d with
  | nil => exact List.Forall₂.nil
  | cons c d ih =>
      have hc := hsupp c (List.mem_cons_self _ _)
      have hce := heven c (List.mem_cons_self _ _)
      have htail := ih (fun c' h' => hsupp c' (List.mem_cons_of_mem _ h'))
        (fun c' h' => heven c' (List.mem_cons_of_mem _ h'))
      rcases c with ⟨k, ns⟩
      cases k with
      | other => exact absurd rfl hc
      | M => exact List.Forall₂.cons ⟨rfl, transformNums_mirror_twice ns hce⟩ htail
      | L => exact List.Forall₂.cons ⟨rfl, transformNums_mirror_twice ns hce⟩ htail
      | Q => exact List.Forall₂.cons ⟨rfl, transformNums_mirror_twice ns hce⟩ htail
      | C => exact List.Forall₂.cons ⟨rfl, transformNums_mirror_twice ns hce⟩ htail

/-- C7 witness: the mirror-twice bound at a concrete one-command path. -/
theorem mirror_twice_bake_witness :
    List.Forall₂ (fun c c' => c.kind = c'.kind ∧
        List.Forall₂ (fun a b => |b - a| ≤ 1 / 100) c.nums c'.nums)
      [(⟨CmdKind.M, [550, 450]⟩ : PathCmd)]
      (transformPathData mirrorTF (transformPathData mirrorTF
        [(⟨CmdKind.M, [550, 450]⟩ : PathCmd)])) :=
  mirror_twice_bake [⟨CmdKind.M, [550, 450]⟩]
    (by
      intro c hcm
      rw [List.mem_singleton] at hcm
      rw [hcm]
      decide)
    (by
      intro c hcm
      rw [List.mem_singleton] at hcm
      rw [hcm]
      decide)

/-- The scenario's single line-mode stroke: `M 550 450 L 600 480`. -/
def lineD : PathData := [⟨CmdKind.M, [550, 450]⟩, ⟨CmdKind.L, [600, 480]⟩]

/-- The baker's input for a replica element: (a clone of) the stroke geometry
carrying the element's parsed transform attribute. -/
noncomputable def elemToPath (el : Elem PathData) : SvgPath :=
  ⟨el.geom, some el.tf.attr⟩

/-- `generateBakedPaths`: `getAllPaths` (the snowflake layer's children) with
`bakeTransform` applied to each. -/
noncomputable def generateBakedPaths (s : SymState PathData) : List SvgPath :=
  s.layer.map fun el => bakeTransform (elemToPath el)

theorem round2_intCast (n : ℤ) : round2 (n : ℝ) = (n : ℝ) := by
  unfold round2
  rw [show (100 : ℝ) * (n : ℝ) = ((100 * n : ℤ) : ℝ) by push_cast; ring, round_intCast]
  push_cast
  ring

theorem applyTransform_attr0 (x y : ℝ) :
    applyTransform (ReplicaTransform.attr ⟨0, false⟩) (x, y) = (x, y) := by
  unfold applyTransform ReplicaTransform.attr
  refine Prod.ext ?_ ?_ <;>
    simp <;> ring

theorem applyTransform_attr0m (x y : ℝ) :
    applyTransform (ReplicaTransform.attr ⟨0, true⟩) (x, y) = (2 * CENTER.x - x, y) := by
  unfold applyTransform ReplicaTransform.attr
  refine Prod.ext ?_ ?_ <;>
    simp <;> ring

/-- C3: adding the line stroke (550,450)-(600,480) to a fresh replicator and
baking the full replica set yields exactly 12 baked paths; the baked replica
at rotation 0° without mirror equals the original segment exactly, and the
baked replica at rotation 0° with mirror has endpoints (450,450) and
(400,480), i.e. each coordinate mapped by x' = 1000 - x, y' = y. -/
theorem line_stroke_bake :
    (generateBakedPaths (addStroke (initState PathData) ⟨0, lineD⟩)).length = 12 ∧
    (generateBakedPaths (addStroke (initState PathData) ⟨0, lineD⟩)).getD 0 ⟨[], none⟩ =
      ⟨lineD, none⟩ ∧
    (generateBakedPaths (addStroke (initState PathData) ⟨0, lineD⟩)).getD 1 ⟨[], none⟩ =
      ⟨[⟨CmdKind.M, [450, 450]⟩, ⟨CmdKind.L, [400, 480]⟩], none⟩ := by
  have r550 : round2 550 = 550 := by
    have h := round2_intCast 550
    push_cast at h
    exact h
  have r450 : round2 450 = 450 := by
    have h := round2_intCast 450
    push_cast at h
    exact h
  have r600 : round2 600 = 600 := by
    have h := round2_intCast 600
    push_cast at h
    exact h
  have r480 : round2 480 = 480 := by
    have h := round2_intCast 480
    push_cast at h
    exact h
  have r400 : round2 400 = 400 := by
    have h := round2_intCast 400
    push_cast at h
    exact h
  refine ⟨?_, ?_, ?_⟩
  · simp [generateBakedPaths, addStroke, initState, newReplicas, ROTATION_ANGLES]
  · norm_num [generateBakedPaths, addStroke, initState, newReplicas, ROTATION_ANGLES,
      bakeTransform, elemToPath, transformPathData, transformNums, lineD,
      List.filterMap_cons, List.filterMap_nil,
      applyTransform_attr0, r550, r450, r600, r480]
  · norm_num [generateBakedPaths, addStroke, initState, newReplicas, ROTATION_ANGLES,
      bakeTransform, elemToPath, transformPathData, transformNums, lineD,
      List.filterMap_cons, List.filterMap_nil,
      applyTransform_attr0m, CENTER, r550, r450, r600, r480, r400]
